import Mathlib

/-
Verification of the selenic utility layer (src/selenic/util.py) against its
design specification. The Python code is shallowly embedded: the timeout
stack of the Util object becomes an explicit state value, the dictionary
comparator locations_within becomes a recursive function over association
lists, and the visible_to_user probe becomes a pure function over an
abstract DOM world. Driver exceptions are modelled with Except.
-/

namespace Selenic

/-! ## Timeout stack (Util.push_timeout, Util.pop_timeout, Util.local_timeout)

The Util object keeps self.timeouts, a list of numeric timeouts with the
current one at the front, and every mutation propagates the new front to
the driver via set_script_timeout. We model the pair of those two pieces
of state. Timeout values are modelled as Int.
-/

structure UtilState where
  timeouts : List Int
  driverScriptTimeout : Int
deriving DecidableEq

/-- Embedding of Util.push_timeout: self.timeouts[0:0] = [new] inserts at the
front, then self.driver.set_script_timeout(new). -/
def push_timeout (s : UtilState) (new : Int) : UtilState :=
  { timeouts := new :: s.timeouts, driverScriptTimeout := new }

/-- Embedding of Util.pop_timeout: raises when only one element remains
(the source message reads, with a contraction, that one cannot pop when
there is only one element on the stack); otherwise sets the driver timeout
to the element in second position and pops the front, returning it. The
catch-all branch models the IndexError Python would raise on an empty
list when reading self.timeouts[1]. -/
def pop_timeout (s : UtilState) : UtilState × Except String Int :=
  if s.timeouts.length = 1 then
    (s, Except.error "cannot pop when there is only one element on the stack")
  else
    match s.timeouts with
    | x :: y :: rest =>
        ({ timeouts := y :: rest, driverScriptTimeout := y }, Except.ok x)
    | _ => (s, Except.error "list index out of range")

/-- Events recorded by the scoped helper: operations on the timeout stack. -/
inductive TEv where
  | push (v : Int)
  | pop
deriving DecidableEq

/-- Embedding of Util.local_timeout, a contextmanager that calls
push_timeout(value), yields to the body, and calls pop_timeout() in a
finally block. The body is opaque user code represented only by whether it
raises; the returned Bool tells whether an exception escapes the scope
(the body exception, or a pop failure). The event list records the stack
operations performed, in order. -/
def local_timeout (s : UtilState) (value : Int) (bodyRaises : Bool) :
    UtilState × List TEv × Bool :=
  let s1 := push_timeout s value
  let p := pop_timeout s1
  (p.1, [TEv.push value, TEv.pop],
    bodyRaises || (match p.2 with | Except.ok _ => false | Except.error _ => true))

/-- States reachable from the constructor: Util.__init__ creates the stack
[default_timeout] and sets the driver timeout to it; thereafter only
push_timeout and successful pop_timeout mutate this state. -/
inductive Reachable : UtilState → Prop where
  | init (d : Int) : Reachable { timeouts := [d], driverScriptTimeout := d }
  | push (s : UtilState) (n : Int) : Reachable s → Reachable (push_timeout s n)
  | pop (s s2 : UtilState) (v : Int) :
      Reachable s → pop_timeout s = (s2, Except.ok v) → Reachable s2

/-! ## Dictionary primitives for the locations_within comparator

Python dictionaries with string keys are modelled as association lists in
insertion order. alookup models membership test and subscripting, aerase
models del (it removes the single matching entry of a proper dict), and
keysOf models the key view. Values are Int: the comparator documents that
its values must be int-coercible, and int() is the identity on them.
-/

def alookup {β : Type} (k : String) : List (String × β) → Option β
  | [] => none
  | (k2, v) :: rest => if k2 = k then some v else alookup k rest

def aerase {β : Type} (k : String) : List (String × β) → List (String × β)
  | [] => []
  | (k2, v) :: rest => if k2 = k then rest else (k2, v) :: aerase k rest

def keysOf {β : Type} (l : List (String × β)) : List String :=
  l.map Prod.fst

/-- Embedding of the commas-and-space join performed on the leftover keys,
mirroring the join method of Python strings. -/
def joinComma : List String → String
  | [] => ""
  | x :: xs => xs.foldl (fun r e => r ++ ", " ++ e) x

/-- Embedding of the per-key difference message built by locations_within
through string formatting: the word key, the key, the word differs, and
the two integer values. -/
def fmtDiff (key : String) (va vb : Int) : String :=
  "key " ++ key ++ " differs: " ++ toString va ++ " " ++ toString vb

/-- Loop of locations_within: iterate over the items of a in order; a key
absent from the remaining copy of b raises ValueError; an absolute
difference exceeding the tolerance appends a message to the accumulator;
the key is then deleted from the copy of b. After the loop, leftover keys
in b raise ValueError; otherwise the accumulator is returned. -/
def lw_go : List (String × Int) → List (String × Int) → Int → String →
    Except String String
  | [], b, _, ret =>
      if b = [] then Except.ok ret
      else Except.error ("keys in b not seen in a: " ++ joinComma (keysOf b))
  | (key, value) :: rest, b, tolerance, ret =>
      match alookup key b with
      | none => Except.error ("b does not have the key: " ++ key)
      | some bv =>
          lw_go rest (aerase key b) tolerance
            (if tolerance < |value - bv| then ret ++ fmtDiff key value bv else ret)

/-- Embedding of the free function locations_within. The Python function
first clones b (implicit here since the embedding is pure), then runs the
loop with an empty accumulator. ValueError is modelled as Except.error. -/
def locations_within (a b : List (String × Int)) (tolerance : Int) :
    Except String String :=
  lw_go a b tolerance ""

/-! ### Closed form of the comparator on matching key sets -/

/-- Difference message contributed by one key, given its lookup result in b. -/
def diffEntry (tolerance : Int) (k : String) (v : Int) : Option Int → String
  | some bv => if tolerance < |v - bv| then fmtDiff k v bv else ""
  | none => ""

/-- Concatenation, in iteration order of a, of the difference messages of
the keys whose absolute difference against b exceeds the tolerance. -/
def diffConcat (b : List (String × Int)) (tolerance : Int) :
    List (String × Int) → String
  | [] => ""
  | (k, v) :: rest =>
      diffEntry tolerance k v (alookup k b) ++ diffConcat b tolerance rest

/-! ## Visibility probe (Util.visible_to_user)

Abstract DOM model. Elements are identified by Nat ids. The World carries
the CSS display values of the elements addressed by the ignorable jQuery
selectors, the window inner size, the hit-test oracle efp modelling
document.elementFromPoint as observed while the ignorable elements are
hidden (all sampling in the source happens in that state), and the DOM
containment relation modelling Node.contains (inclusive of the node
itself). JavaScript values reaching contains are modelled by JsVal; per
WebIDL, passing a non-Node, non-null argument to contains is a TypeError.
-/

inductive JsVal where
  | node (id : Nat)
  | nullv
  | bool (b : Bool)
deriving DecidableEq

structure Rect where
  left : Int
  top : Int
  right : Int
  bottom : Int
deriving DecidableEq

structure Elem where
  id : Nat
  is_displayed : Bool
  posTop : Int
  posLeft : Int
  width : Int
  height : Int
  rect : Rect
deriving DecidableEq

structure World where
  displays : List (String × String)
  winWidth : Int
  winHeight : Int
  efp : Int → Int → JsVal
  contains : Nat → Nat → Bool

/-- jQuery css setter on a selector: sets the display value of the matched
entry, leaves everything else unchanged. -/
def cssSet (d : List (String × String)) (sel val : String) :
    List (String × String) :=
  d.map (fun e => if e.1 = sel then (e.1, val) else e)

/-- Node.contains with a JavaScript value argument: a node tests DOM
containment, null yields false, and a boolean is a TypeError per WebIDL. -/
def nodeContains (w : World) (el : Nat) : JsVal → Except String Bool
  | JsVal.node n => Except.ok (w.contains el n)
  | JsVal.nullv => Except.ok false
  | JsVal.bool _ => Except.error "TypeError"

/-- The strict-equality test between an elementFromPoint result and the
target element, as in the script source. -/
def jsEqNode : JsVal → Nat → Bool
  | JsVal.node n, el => n == el
  | _, _ => false

/-- Embedding of the corner-sampling chain of the script. In JavaScript,
assignment binds lower than strict equality, so each at_corner variable
holds the Boolean of the comparison, not the hit-tested element; the
subsequent el.contains(at_corner) therefore receives a boolean. The
or-chain short-circuits left to right. -/
def corner_check (w : World) (el : Nat) (r : Rect) : Except String Bool :=
  let a1 := jsEqNode (w.efp r.left r.top) el
  if a1 then Except.ok true else
  match nodeContains w el (JsVal.bool a1) with
  | Except.error e => Except.error e
  | Except.ok c1 =>
    if c1 then Except.ok true else
    let a2 := jsEqNode (w.efp r.left r.bottom) el
    if a2 then Except.ok true else
    match nodeContains w el (JsVal.bool a2) with
    | Except.error e => Except.error e
    | Except.ok c2 =>
      if c2 then Except.ok true else
      let a3 := jsEqNode (w.efp r.right r.top) el
      if a3 then Except.ok true else
      match nodeContains w el (JsVal.bool a3) with
      | Except.error e => Except.error e
      | Except.ok c3 =>
        if c3 then Except.ok true else
        let a4 := jsEqNode (w.efp r.right r.bottom) el
        if a4 then Except.ok true else
        match nodeContains w el (JsVal.bool a4) with
        | Except.error e => Except.error e
        | Except.ok c4 => Except.ok c4

/-- The hiding loop of the script: set the display of every ignorable
selector to none. -/
def hideAll (ig : List String) (d : List (String × String)) :
    List (String × String) :=
  ig.foldl (fun d2 x => cssSet d2 x "none") d

/-- The restoring loop of the finally block: write each recorded old
display value back to its selector, in order; a selector that matched
nothing recorded undefined and restoring it is a no-op. -/
def restoreAll (ig : List String) (olds : List (Option String))
    (d : List (String × String)) : List (String × String) :=
  (ig.zip olds).foldl
    (fun d2 p => match p.2 with
      | some o => cssSet d2 p.1 o
      | none => d2) d

/-- The inline script of visible_to_user: record the old display values,
hide the ignorable elements, sample the corners inside try, and restore
the displays in the finally block whether or not the body raised. The
body result (or its exception) is then returned. The hit-test oracle efp
already denotes hit-testing in the hidden state. -/
def run_visibility_script (w : World) (el : Nat) (r : Rect)
    (ig : List String) : List (String × String) × Except String Bool :=
  let old_displays := ig.map (fun x => alookup x w.displays)
  let hidden := hideAll ig w.displays
  let body := corner_check w el r
  (restoreAll ig old_displays hidden, body)

structure VisOutcome where
  world : World
  result : Except String Bool
  script_ran : Bool

/-- Embedding of Util.visible_to_user: return False when the element is
not displayed; fetch position, size and window inner size and return
False when the bounding box is outside the viewport; otherwise run the
corner-sampling script. script_ran records whether the script was
invoked. -/
def visible_to_user (w : World) (e : Elem) (ignorable : List String) :
    VisOutcome :=
  if !e.is_displayed then ⟨w, Except.ok false, false⟩
  else if e.posTop + e.height < 0 ∨ e.posLeft + e.width < 0 ∨
          e.posTop > w.winHeight ∨ e.posLeft > w.winWidth then
    ⟨w, Except.ok false, false⟩
  else
    let p := run_visibility_script w e.id e.rect ignorable
    ⟨{ w with displays := p.1 }, p.2, true⟩

/-- Modelled from the spec: the element counts as visible when at least one
of the four corners of its bounding rectangle hit-tests to the target
element itself or to a descendant of it. This is the specified behaviour,
stated for comparison against corner_check. -/
def cornersVisibleSpec (w : World) (el : Nat) (r : Rect) : Bool :=
  [(r.left, r.top), (r.left, r.bottom), (r.right, r.top),
    (r.right, r.bottom)].any
    (fun p => match w.efp p.1 p.2 with
      | JsVal.node n => n == el || w.contains el n
      | _ => false)

/-- Concrete world for the corner-sampling divergence: element 0 has a
child 1, and every corner hit-tests to the child. -/
def cexWorld : World :=
  { displays := []
    winWidth := 100
    winHeight := 100
    efp := fun _ _ => JsVal.node 1
    contains := fun p c => p == 0 && (c == 0 || c == 1) }

/-- Concrete displayed element inside the viewport whose corners all
hit-test to its child. -/
def cexElem : Elem :=
  { id := 0, is_displayed := true, posTop := 10, posLeft := 10,
    width := 10, height := 10, rect := ⟨10, 10, 20, 20⟩ }

/-- World for the display-restoration witness: one ignorable overlay. -/
def visWorld : World :=
  { displays := [("div.overlay", "block")]
    winWidth := 100
    winHeight := 100
    efp := fun _ _ => JsVal.node 0
    contains := fun p c => p == c }

/-! ### Display restoration -/

/-- Per-entry effect of one restore step. -/
def rstep (p : String × Option String) (e : String × String) :
    String × String :=
  match p.2 with
  | some o => if e.1 = p.1 then (e.1, o) else e
  | none => e

/-! ### Cheap rejection paths -/

/-- The closed bounding box of the element in screen coordinates. -/
def inBox (e : Elem) (x y : Int) : Prop :=
  e.posLeft ≤ x ∧ x ≤ e.posLeft + e.width ∧
  e.posTop ≤ y ∧ y ≤ e.posTop + e.height

/-- The closed viewport rectangle given by the window inner size. -/
def inViewport (w : World) (x y : Int) : Prop :=
  0 ≤ x ∧ x ≤ w.winWidth ∧ 0 ≤ y ∧ y ≤ w.winHeight

/-- Invariant: in every reachable state the stack is nonempty and the
driver script timeout equals the front of the stack. -/
lemma reachable_head (s : UtilState) (hs : Reachable s) :
    ∃ t, s.timeouts = s.driverScriptTimeout :: t := by
  induction hs with
  | init d => exact ⟨[], rfl⟩
  | push s n _ _ => exact ⟨s.timeouts, rfl⟩
  | pop s s2 v _ hpop _ =>
    unfold pop_timeout at hpop
    split at hpop
    · simp at hpop
    · split at hpop
      · rename_i x y rest _
        rw [Prod.mk.injEq] at hpop
        exact ⟨rest, by rw [← hpop.1]⟩
      · simp at hpop

/-- Popping immediately after a push succeeds, returns the pushed value,
and restores the exact prior state. -/
lemma pop_push (s : UtilState) (v : Int) (hs : Reachable s) :
    pop_timeout (push_timeout s v) = (s, Except.ok v) := by
  obtain ⟨t, ht⟩ := reachable_head s hs
  cases s with
  | mk ts dt =>
    simp only at ht
    subst ht
    show pop_timeout { timeouts := v :: dt :: t, driverScriptTimeout := v } = _
    unfold pop_timeout
    rw [if_neg (by simp)]

/-- Claim C1: in every reachable timeout-stack state, push_timeout v makes v
the front of the stack and the active driver script timeout, and a
subsequent pop_timeout returns v and restores the exact prior stack
contents and prior driver timeout. -/
theorem push_pop_roundtrip (s : UtilState) (v : Int) (hs : Reachable s) :
    (push_timeout s v).timeouts = v :: s.timeouts ∧
    (push_timeout s v).driverScriptTimeout = v ∧
    pop_timeout (push_timeout s v) = (s, Except.ok v) :=
  ⟨rfl, rfl, pop_push s v hs⟩

/-- Witness for C1 at the concrete reachable state with stack [2]. -/
theorem push_pop_roundtrip_witness :
    Reachable { timeouts := [2], driverScriptTimeout := 2 } ∧
    ((push_timeout ⟨[2], 2⟩ 5).timeouts = 5 :: [2] ∧
     (push_timeout ⟨[2], 2⟩ 5).driverScriptTimeout = 5 ∧
     pop_timeout (push_timeout ⟨[2], 2⟩ 5) = (⟨[2], 2⟩, Except.ok 5)) :=
  ⟨Reachable.init 2, push_pop_roundtrip ⟨[2], 2⟩ 5 (Reachable.init 2)⟩

/-- Claim C2: whenever the timeout stack has exactly one element,
pop_timeout raises the invalid-operation error and leaves both the stack
contents and the driver script timeout unchanged. -/
theorem pop_timeout_singleton (s : UtilState) (h : s.timeouts.length = 1) :
    pop_timeout s =
      (s, Except.error "cannot pop when there is only one element on the stack") := by
  unfold pop_timeout
  rw [if_pos h]

/-- Witness for C2 at the concrete singleton state. -/
theorem pop_timeout_singleton_witness :
    (UtilState.mk [2] 2).timeouts.length = 1 ∧
    pop_timeout ⟨[2], 2⟩ =
      (⟨[2], 2⟩, Except.error "cannot pop when there is only one element on the stack") :=
  ⟨rfl, pop_timeout_singleton ⟨[2], 2⟩ rfl⟩

/-- Claim C9: local_timeout pushes v on entry and pops exactly once on exit
whether or not the body raises; the final state has the prior stack
contents and prior driver timeout, and the body exception (if any)
propagates unchanged. -/
theorem local_timeout_balanced (s : UtilState) (v : Int) (bodyRaises : Bool)
    (hs : Reachable s) :
    local_timeout s v bodyRaises = (s, [TEv.push v, TEv.pop], bodyRaises) := by
  simp only [local_timeout, pop_push s v hs, Bool.or_false]

/-- Witness for C9 at the concrete reachable state with stack [2] and a
raising body. -/
theorem local_timeout_balanced_witness :
    Reachable { timeouts := [2], driverScriptTimeout := 2 } ∧
    local_timeout ⟨[2], 2⟩ 5 true = (⟨[2], 2⟩, [TEv.push 5, TEv.pop], true) :=
  ⟨Reachable.init 2, local_timeout_balanced ⟨[2], 2⟩ 5 true (Reachable.init 2)⟩

/-! ### String helpers -/

lemma str_append_nil : ∀ (s : String), s ++ "" = s
  | ⟨l⟩ => congrArg String.mk (List.append_nil l)

lemma str_nil_append : ∀ (s : String), "" ++ s = s
  | ⟨_⟩ => rfl

lemma str_append_assoc : ∀ (s t u : String), s ++ t ++ u = s ++ (t ++ u)
  | ⟨a⟩, ⟨b⟩, ⟨c⟩ => congrArg String.mk (List.append_assoc a b c)

lemma str_append_eq_nil (s t : String) : s ++ t = "" ↔ s = "" ∧ t = "" := by
  cases s with
  | mk a =>
    cases t with
    | mk b =>
      constructor
      · intro h
        have hd : a ++ b = [] := congrArg String.data h
        rcases List.append_eq_nil.mp hd with ⟨ha, hb⟩
        exact ⟨congrArg String.mk ha, congrArg String.mk hb⟩
      · rintro ⟨ha, hb⟩
        rw [ha, hb]
        rfl

lemma fmtDiff_ne_nil (key : String) (va vb : Int) : fmtDiff key va vb ≠ "" := by
  intro h
  have := (str_append_eq_nil _ _).mp h
  have := (str_append_eq_nil _ _).mp this.1
  have := (str_append_eq_nil _ _).mp this.1
  have := (str_append_eq_nil _ _).mp this.1
  have := (str_append_eq_nil _ _).mp this.1
  have hk : ("key " : String) = "" := this.1
  exact absurd (congrArg String.data hk) (by simp)

/-! ### Association-list lemmas -/

lemma mem_keysOf_iff {β : Type} (k : String) (l : List (String × β)) :
    k ∈ keysOf l ↔ (alookup k l).isSome := by
  induction l with
  | nil => simp [keysOf, alookup]
  | cons e rest ih =>
    obtain ⟨k2, v⟩ := e
    by_cases h : k2 = k
    · subst h
      simp [keysOf, alookup]
    · have h2 : ¬ k = k2 := fun hh => h hh.symm
      simp only [keysOf] at ih
      simp [keysOf, alookup, h, h2, ih]

lemma alookup_eq_none {β : Type} (k : String) (l : List (String × β))
    (h : k ∉ keysOf l) : alookup k l = none := by
  rcases hres : alookup k l with _ | v
  · rfl
  · exact absurd ((mem_keysOf_iff k l).mpr (by simp [hres])) h

lemma alookup_aerase_ne {β : Type} (k k2 : String) (b : List (String × β))
    (h : k ≠ k2) : alookup k (aerase k2 b) = alookup k b := by
  induction b with
  | nil => rfl
  | cons e rest ih =>
    obtain ⟨k3, v⟩ := e
    by_cases h3 : k3 = k2
    · subst h3
      have hne : ¬ k3 = k := fun hh => h hh.symm
      simp [aerase, alookup, hne]
    · simp only [aerase, if_neg h3]
      by_cases hk : k3 = k
      · subst hk
        simp [alookup]
      · simp [alookup, hk, ih]

lemma mem_keysOf_aerase_ne {β : Type} (k k2 : String) (b : List (String × β))
    (h : k ≠ k2) : k ∈ keysOf (aerase k2 b) ↔ k ∈ keysOf b := by
  rw [mem_keysOf_iff, mem_keysOf_iff, alookup_aerase_ne k k2 b h]

lemma keysOf_aerase_subset {β : Type} (k2 : String) (b : List (String × β)) :
    keysOf (aerase k2 b) ⊆ keysOf b := by
  induction b with
  | nil => simp [aerase]
  | cons e rest ih =>
    obtain ⟨k3, v⟩ := e
    by_cases h3 : k3 = k2
    · subst h3
      simp only [aerase, if_pos rfl, keysOf, List.map_cons]
      exact fun x hx => List.mem_cons_of_mem _ hx
    · simp only [aerase, if_neg h3, keysOf, List.map_cons]
      intro x hx
      rcases List.mem_cons.mp hx with h | h
      · exact List.mem_cons.mpr (Or.inl h)
      · exact List.mem_cons.mpr (Or.inr (ih h))

lemma nodup_keysOf_aerase {β : Type} (k2 : String) (b : List (String × β))
    (h : (keysOf b).Nodup) : (keysOf (aerase k2 b)).Nodup := by
  induction b with
  | nil => simp [aerase, keysOf]
  | cons e rest ih =>
    obtain ⟨k3, v⟩ := e
    simp only [keysOf, List.map_cons, List.nodup_cons] at h
    by_cases h3 : k3 = k2
    · subst h3
      simpa [aerase, keysOf] using h.2
    · simp only [aerase, if_neg h3, keysOf, List.map_cons, List.nodup_cons]
      exact ⟨fun hx => h.1 (keysOf_aerase_subset k2 rest hx), ih h.2⟩

lemma alookup_aerase_self {β : Type} (k : String) (b : List (String × β))
    (h : (keysOf b).Nodup) : alookup k (aerase k b) = none := by
  induction b with
  | nil => rfl
  | cons e rest ih =>
    obtain ⟨k3, v⟩ := e
    simp only [keysOf, List.map_cons, List.nodup_cons] at h
    by_cases h3 : k3 = k
    · subst h3
      simp only [aerase, if_pos rfl]
      exact alookup_eq_none k3 rest h.1
    · simp only [aerase, if_neg h3, alookup, if_neg h3]
      exact ih h.2

lemma alookup_of_mem_nodup {β : Type} (k : String) (v : β)
    (l : List (String × β)) (hmem : (k, v) ∈ l) (h : (keysOf l).Nodup) :
    alookup k l = some v := by
  induction l with
  | nil => cases hmem
  | cons e rest ih =>
    obtain ⟨k3, v3⟩ := e
    simp only [keysOf, List.map_cons, List.nodup_cons] at h
    rcases List.mem_cons.mp hmem with he | hrest
    · obtain ⟨hk, hv⟩ := Prod.mk.injEq _ _ _ _ ▸ he
      subst hk
      subst hv
      simp [alookup]
    · by_cases h3 : k3 = k
      · subst h3
        exact absurd (List.mem_map.mpr ⟨(k3, v), hrest, rfl⟩) h.1
      · simp only [alookup, if_neg h3]
        exact ih hrest h.2

lemma diffConcat_congr (b b2 : List (String × Int)) (tol : Int)
    (a : List (String × Int))
    (h : ∀ k, k ∈ keysOf a → alookup k b = alookup k b2) :
    diffConcat b tol a = diffConcat b2 tol a := by
  induction a with
  | nil => rfl
  | cons e rest ih =>
    obtain ⟨k, v⟩ := e
    have hk := h k (List.mem_cons_self _ _)
    simp only [diffConcat]
    rw [hk, ih (fun k2 hk2 => h k2 (List.mem_cons_of_mem _ hk2))]

lemma lw_go_ok (tol : Int) : ∀ (a b : List (String × Int)) (ret : String),
    (keysOf a).Nodup → (keysOf b).Nodup →
    keysOf a ⊆ keysOf b → keysOf b ⊆ keysOf a →
    lw_go a b tol ret = Except.ok (ret ++ diffConcat b tol a) := by
  intro a
  induction a with
  | nil =>
    intro b ret _ _ _ hba
    have hb : b = [] := by
      have : keysOf b = [] := List.subset_nil.mp hba
      exact List.map_eq_nil_iff.mp this
    subst hb
    simp [lw_go, diffConcat, str_append_nil]
  | cons e rest ih =>
    intro b ret ha hb hab hba
    obtain ⟨k, v⟩ := e
    have hkb : k ∈ keysOf b := hab (List.mem_cons_self _ _)
    rcases hlk : alookup k b with _ | bv
    · exact absurd hkb (by rw [mem_keysOf_iff, hlk]; simp)
    · have hknotin : k ∉ keysOf rest := (List.nodup_cons.mp ha).1
      have ha' : (keysOf rest).Nodup := (List.nodup_cons.mp ha).2
      have hb' := nodup_keysOf_aerase k b hb
      have hab' : keysOf rest ⊆ keysOf (aerase k b) := fun x hx =>
        (mem_keysOf_aerase_ne x k b (fun he => hknotin (he ▸ hx))).mpr
          (hab (List.mem_cons_of_mem _ hx))
      have hba' : keysOf (aerase k b) ⊆ keysOf rest := by
        intro x hx
        have hxb : x ∈ keysOf b := keysOf_aerase_subset k b hx
        have hxk : x ≠ k := by
          intro he
          subst he
          rw [mem_keysOf_iff, alookup_aerase_self x b hb] at hx
          simp at hx
        rcases List.mem_cons.mp (hba hxb) with he | hr
        · exact absurd he hxk
        · exact hr
      have hcongr : diffConcat (aerase k b) tol rest = diffConcat b tol rest :=
        diffConcat_congr _ _ tol rest
          (fun k2 hk2 => alookup_aerase_ne k2 k b (fun he => hknotin (he ▸ hk2)))
      simp only [lw_go, hlk]
      rw [ih (aerase k b) _ ha' hb' hab' hba', hcongr]
      simp only [diffConcat, hlk, diffEntry]
      by_cases hc : tol < |v - bv|
      · rw [if_pos hc, if_pos hc, str_append_assoc]
      · rw [if_neg hc, if_neg hc, str_nil_append]

lemma diffConcat_empty_iff (b : List (String × Int)) (tol : Int) :
    ∀ (a : List (String × Int)), diffConcat b tol a = "" ↔
      (∀ k v bv, (k, v) ∈ a → alookup k b = some bv → |v - bv| ≤ tol) := by
  intro a
  induction a with
  | nil =>
    constructor
    · intro _ k v bv hm
      exact absurd hm (List.not_mem_nil _)
    · intro _
      rfl
  | cons e rest ih =>
    obtain ⟨k, v⟩ := e
    simp only [diffConcat]
    rw [str_append_eq_nil]
    constructor
    · rintro ⟨h1, h2⟩ k2 v2 bv2 hmem hlk
      rcases List.mem_cons.mp hmem with he | hr
      · obtain ⟨hk, hv⟩ := Prod.mk.injEq _ _ _ _ ▸ he
        subst hk
        subst hv
        rw [hlk] at h1
        simp only [diffEntry] at h1
        by_cases hc : tol < |v2 - bv2|
        · rw [if_pos hc] at h1
          exact absurd h1 (fmtDiff_ne_nil _ _ _)
        · exact not_lt.mp hc
      · exact ih.mp h2 k2 v2 bv2 hr hlk
    · intro hall
      refine ⟨?_, ih.mpr (fun k2 v2 bv2 hm hl => hall k2 v2 bv2 (List.mem_cons_of_mem _ hm) hl)⟩
      rcases hlk : alookup k b with _ | bv
      · rfl
      · have := hall k v bv (List.mem_cons_self _ _) hlk
        simp only [diffEntry]
        rw [if_neg (not_lt.mpr this)]

lemma diffConcat_mem_infix (b : List (String × Int)) (tol : Int) :
    ∀ (a : List (String × Int)) (k : String) (v bv : Int),
      (k, v) ∈ a → alookup k b = some bv → tol < |v - bv| →
      ∃ pre post, diffConcat b tol a = pre ++ fmtDiff k v bv ++ post := by
  intro a
  induction a with
  | nil => intro k v bv hm; exact absurd hm (List.not_mem_nil _)
  | cons e rest ih =>
    obtain ⟨k2, v2⟩ := e
    intro k v bv hm hlk hgt
    rcases List.mem_cons.mp hm with he | hr
    · obtain ⟨hk, hv⟩ := Prod.mk.injEq _ _ _ _ ▸ he
      subst hk
      subst hv
      refine ⟨"", diffConcat b tol rest, ?_⟩
      simp only [diffConcat, hlk, diffEntry, if_pos hgt]
      rw [str_nil_append]
    · obtain ⟨pre, post, hpp⟩ := ih k v bv hr hlk hgt
      refine ⟨diffEntry tol k2 v2 (alookup k2 b) ++ pre, post, ?_⟩
      simp only [diffConcat, hpp, str_append_assoc]

/-- Claim C3: on mappings with identical key sets, locations_within returns
normally; the returned string is empty exactly when every key is within
the inclusive tolerance, and for every key whose absolute difference
exceeds the tolerance the returned string contains that key's difference
message (not only the first such key). -/
theorem locations_within_tolerance_report (a b : List (String × Int))
    (tolerance : Int) (ha : (keysOf a).Nodup) (hb : (keysOf b).Nodup)
    (hab : keysOf a ⊆ keysOf b) (hba : keysOf b ⊆ keysOf a) :
    ∃ s, locations_within a b tolerance = Except.ok s ∧
      (s = "" ↔ ∀ k v bv, (k, v) ∈ a → alookup k b = some bv →
        |v - bv| ≤ tolerance) ∧
      (∀ k v bv, (k, v) ∈ a → alookup k b = some bv → tolerance < |v - bv| →
        ∃ pre post, s = pre ++ fmtDiff k v bv ++ post) := by
  refine ⟨diffConcat b tolerance a, ?_, diffConcat_empty_iff b tolerance a, ?_⟩
  · unfold locations_within
    rw [lw_go_ok tolerance a b "" ha hb hab hba, str_nil_append]
  · exact fun k v bv hm hl hgt => diffConcat_mem_infix b tolerance a k v bv hm hl hgt

/-- Witness for C3: equal maps compare to the empty string, and a map pair
differing by more than the tolerance at both keys reports both keys. -/
theorem locations_within_tolerance_report_witness :
    ((keysOf [("x", (10:Int)), ("y", 20)]).Nodup ∧
      keysOf [("x", (10:Int)), ("y", 20)] ⊆ keysOf [("x", (10:Int)), ("y", 20)]) ∧
    (∃ s, locations_within [("x", (10:Int)), ("y", 20)] [("x", 10), ("y", 20)] 0 =
        Except.ok s ∧
      (s = "" ↔ ∀ k v bv, (k, v) ∈ [("x", (10:Int)), ("y", 20)] →
        alookup k [("x", (10:Int)), ("y", 20)] = some bv → |v - bv| ≤ 0) ∧
      (∀ k v bv, (k, v) ∈ [("x", (10:Int)), ("y", 20)] →
        alookup k [("x", (10:Int)), ("y", 20)] = some bv → (0:Int) < |v - bv| →
        ∃ pre post, s = pre ++ fmtDiff k v bv ++ post)) :=
  ⟨⟨by decide, fun x h => h⟩,
    locations_within_tolerance_report _ _ _ (by decide) (by decide)
      (fun x h => h) (fun x h => h)⟩

/-! ### Key-set facts about the comparator -/

lemma lw_go_ok_keysets (tol : Int) : ∀ (a b : List (String × Int))
    (ret s : String), lw_go a b tol ret = Except.ok s →
    ∀ k, (k ∈ keysOf a ↔ k ∈ keysOf b) := by
  intro a
  induction a with
  | nil =>
    intro b ret s h k
    by_cases hb : b = []
    · subst hb
      simp [keysOf]
    · simp only [lw_go, if_neg hb] at h
      exact Except.noConfusion h
  | cons e rest ih =>
    intro b ret s h k
    obtain ⟨k2, v2⟩ := e
    rcases hlk : alookup k2 b with _ | bv
    · simp only [lw_go, hlk] at h
      exact Except.noConfusion h
    · simp only [lw_go, hlk] at h
      have hk2b : k2 ∈ keysOf b := (mem_keysOf_iff _ _).mpr (by simp [hlk])
      have hiff := ih (aerase k2 b) _ s h k
      constructor
      · intro hk
        rcases List.mem_cons.mp hk with he | hr
        · exact he ▸ hk2b
        · exact keysOf_aerase_subset k2 b (hiff.mp hr)
      · intro hk
        by_cases he : k = k2
        · exact he ▸ List.mem_cons_self _ _
        · exact List.mem_cons_of_mem _
            (hiff.mpr ((mem_keysOf_aerase_ne k k2 b he).mpr hk))

/-- Claim C10: whenever locations_within returns normally, whether the
returned string is empty or not, the key sets of the two mappings are
equal. -/
theorem locations_within_ok_implies_equal_keysets (a b : List (String × Int))
    (tolerance : Int) (s : String)
    (h : locations_within a b tolerance = Except.ok s) :
    ∀ k, k ∈ keysOf a ↔ k ∈ keysOf b :=
  lw_go_ok_keysets tolerance a b "" s h

/-- Witness for C10 at a concrete pair of equal singleton maps. -/
theorem locations_within_ok_implies_equal_keysets_witness :
    locations_within [("x", (1:Int))] [("x", (1:Int))] 0 = Except.ok "" ∧
    ("y" ∈ keysOf [("x", (1:Int))] ↔ "y" ∈ keysOf [("x", (1:Int))]) :=
  ⟨rfl, locations_within_ok_implies_equal_keysets
    [("x", (1:Int))] [("x", (1:Int))] 0 "" rfl "y"⟩

/-! ### Key-set mismatch errors -/

lemma lw_go_missing (tol : Int) : ∀ (a b : List (String × Int)) (ret k : String),
    (keysOf a).Nodup → k ∈ keysOf a → k ∉ keysOf b →
    ∃ k2, k2 ∈ keysOf a ∧ k2 ∉ keysOf b ∧
      lw_go a b tol ret = Except.error ("b does not have the key: " ++ k2) := by
  intro a
  induction a with
  | nil =>
    intro b ret k _ hk _
    exact absurd hk (List.not_mem_nil k)
  | cons e rest ih =>
    intro b ret k ha hk hkb
    obtain ⟨k2, v2⟩ := e
    rcases hlk : alookup k2 b with _ | bv
    · refine ⟨k2, List.mem_cons_self _ _, ?_, by simp only [lw_go, hlk]⟩
      rw [mem_keysOf_iff, hlk]
      simp
    · have hk2b : k2 ∈ keysOf b := (mem_keysOf_iff _ _).mpr (by simp [hlk])
      have hne : k ≠ k2 := fun he => hkb (he ▸ hk2b)
      have hkrest : k ∈ keysOf rest := by
        rcases List.mem_cons.mp hk with he | hr
        · exact absurd he hne
        · exact hr
      have hkb2 : k ∉ keysOf (aerase k2 b) :=
        fun hx => hkb (keysOf_aerase_subset k2 b hx)
      have hknotin := (List.nodup_cons.mp ha).1
      obtain ⟨k3, hk3rest, hk3b, hres⟩ :=
        ih (aerase k2 b) _ k (List.nodup_cons.mp ha).2 hkrest hkb2
      refine ⟨k3, List.mem_cons_of_mem _ hk3rest, ?_,
        by simp only [lw_go, hlk]; exact hres⟩
      intro hk3mem
      have hne3 : k3 ≠ k2 := fun he => hknotin (he ▸ hk3rest)
      exact hk3b ((mem_keysOf_aerase_ne k3 k2 b hne3).mpr hk3mem)

lemma lw_go_leftover (tol : Int) : ∀ (a b : List (String × Int)) (ret k : String),
    (keysOf a).Nodup → (keysOf b).Nodup → keysOf a ⊆ keysOf b →
    k ∈ keysOf b → k ∉ keysOf a →
    ∃ bl : List (String × Int), lw_go a b tol ret =
        Except.error ("keys in b not seen in a: " ++ joinComma (keysOf bl)) ∧
      k ∈ keysOf bl := by
  intro a
  induction a with
  | nil =>
    intro b ret k _ _ _ hkb _
    refine ⟨b, ?_, hkb⟩
    have hb : b ≠ [] := by
      intro he
      subst he
      exact absurd hkb (List.not_mem_nil k)
    simp only [lw_go, if_neg hb]
  | cons e rest ih =>
    intro b ret k ha hb hab hkb hka
    obtain ⟨k2, v2⟩ := e
    have hk2b : k2 ∈ keysOf b := hab (List.mem_cons_self _ _)
    rcases hlk : alookup k2 b with _ | bv
    · exact absurd hk2b (by rw [mem_keysOf_iff, hlk]; simp)
    · have hne : k ≠ k2 := fun he => hka (by rw [he]; exact List.mem_cons_self _ _)
      have hknotin := (List.nodup_cons.mp ha).1
      have hab2 : keysOf rest ⊆ keysOf (aerase k2 b) := fun x hx =>
        (mem_keysOf_aerase_ne x k2 b (fun he => hknotin (he ▸ hx))).mpr
          (hab (List.mem_cons_of_mem _ hx))
      have hkb2 : k ∈ keysOf (aerase k2 b) :=
        (mem_keysOf_aerase_ne k k2 b hne).mpr hkb
      have hka2 : k ∉ keysOf rest := fun hx => hka (List.mem_cons_of_mem _ hx)
      obtain ⟨bl, hres, hkbl⟩ := ih (aerase k2 b) _ k (List.nodup_cons.mp ha).2
        (nodup_keysOf_aerase k2 b hb) hab2 hkb2 hka2
      refine ⟨bl, ?_, hkbl⟩
      simp only [lw_go, hlk]
      exact hres

lemma joinComma_foldl_prefix : ∀ (ys : List String) (acc : String),
    ∃ q, ys.foldl (fun r e => r ++ ", " ++ e) acc = acc ++ q := by
  intro ys
  induction ys with
  | nil =>
    intro acc
    exact ⟨"", (str_append_nil acc).symm⟩
  | cons y ys ih =>
    intro acc
    obtain ⟨q, hq⟩ := ih (acc ++ ", " ++ y)
    refine ⟨", " ++ y ++ q, ?_⟩
    rw [List.foldl_cons, hq]
    simp only [str_append_assoc]

lemma joinComma_foldl_mem_infix : ∀ (ys : List String) (acc k : String),
    k ∈ ys →
    ∃ pre post, ys.foldl (fun r e => r ++ ", " ++ e) acc = pre ++ k ++ post := by
  intro ys
  induction ys with
  | nil =>
    intro acc k hk
    exact absurd hk (List.not_mem_nil k)
  | cons y ys ih =>
    intro acc k hk
    rcases List.mem_cons.mp hk with he | hr
    · subst he
      obtain ⟨q, hq⟩ := joinComma_foldl_prefix ys (acc ++ ", " ++ k)
      exact ⟨acc ++ ", ", q, by rw [List.foldl_cons, hq]⟩
    · exact ih (acc ++ ", " ++ y) k hr

lemma joinComma_mem_infix (l : List String) (k : String) (hk : k ∈ l) :
    ∃ pre post, joinComma l = pre ++ k ++ post := by
  cases l with
  | nil => exact absurd hk (List.not_mem_nil k)
  | cons x xs =>
    rcases List.mem_cons.mp hk with he | hr
    · subst he
      obtain ⟨q, hq⟩ := joinComma_foldl_prefix xs k
      refine ⟨"", q, ?_⟩
      simp only [joinComma, hq, str_nil_append]
    · exact joinComma_foldl_mem_infix xs x k hr

/-- Claim C5: when the key sets of the two mappings differ, in either
direction, locations_within raises a ValueError whose message names a
mismatched key. -/
theorem locations_within_keyset_mismatch_raises (a b : List (String × Int))
    (tolerance : Int) (ha : (keysOf a).Nodup) (hb : (keysOf b).Nodup)
    (hdiff : ¬ ∀ k, (k ∈ keysOf a ↔ k ∈ keysOf b)) :
    ∃ e, locations_within a b tolerance = Except.error e ∧
      ∃ k, ((k ∈ keysOf a ∧ k ∉ keysOf b) ∨ (k ∈ keysOf b ∧ k ∉ keysOf a)) ∧
        ∃ pre post, e = pre ++ k ++ post := by
  by_cases hab : keysOf a ⊆ keysOf b
  · have hex : ∃ k, k ∈ keysOf b ∧ k ∉ keysOf a := by
      by_contra hno
      push_neg at hno
      exact hdiff (fun k => ⟨fun hk => hab hk, fun hk => hno k hk⟩)
    obtain ⟨k, hkb, hka⟩ := hex
    obtain ⟨bl, hres, hkbl⟩ := lw_go_leftover tolerance a b "" k ha hb hab hkb hka
    obtain ⟨pre, post, hpp⟩ := joinComma_mem_infix (keysOf bl) k hkbl
    refine ⟨_, hres, k, Or.inr ⟨hkb, hka⟩,
      "keys in b not seen in a: " ++ pre, post, ?_⟩
    rw [hpp]
    simp only [str_append_assoc]
  · have hex : ∃ k, k ∈ keysOf a ∧ k ∉ keysOf b := by
      by_contra hno
      push_neg at hno
      exact hab (fun x hx => hno x hx)
    obtain ⟨k, hka, hkb⟩ := hex
    obtain ⟨k2, hk2a, hk2b, hres⟩ := lw_go_missing tolerance a b "" k ha hka hkb
    exact ⟨_, hres, k2, Or.inl ⟨hk2a, hk2b⟩, "b does not have the key: ", "",
      by rw [str_append_nil]⟩

/-- Witness for C5: the pair with keys x, y against the singleton key x has
mismatched key sets and the comparator raises an error naming a key. -/
theorem locations_within_keyset_mismatch_raises_witness :
    ((keysOf [("x", (1:Int)), ("y", 2)]).Nodup ∧
      (keysOf [("x", (1:Int))]).Nodup ∧
      ¬ ∀ k, (k ∈ keysOf [("x", (1:Int)), ("y", 2)] ↔ k ∈ keysOf [("x", (1:Int))])) ∧
    (∃ e, locations_within [("x", (1:Int)), ("y", 2)] [("x", 1)] 0 = Except.error e ∧
      ∃ k, ((k ∈ keysOf [("x", (1:Int)), ("y", 2)] ∧ k ∉ keysOf [("x", (1:Int))]) ∨
            (k ∈ keysOf [("x", (1:Int))] ∧ k ∉ keysOf [("x", (1:Int)), ("y", 2)])) ∧
        ∃ pre post, e = pre ++ k ++ post) :=
  ⟨⟨by decide, by decide,
      fun hall => absurd ((hall "y").mp (by decide)) (by decide)⟩,
    locations_within_keyset_mismatch_raises _ _ 0 (by decide) (by decide)
      (fun hall => absurd ((hall "y").mp (by decide)) (by decide))⟩

/-! ### The comparator does not short-circuit -/

/-- Claim C4 counterexample: with a mapping x to 100 and y to 2, b mapping
x to 0, and tolerance 0, the very first key x already differs intolerably,
yet the function does not return there: it goes on to examine the later
key y and raises the key-mismatch ValueError instead of returning a
difference string. -/
theorem locations_within_no_short_circuit_cex :
    (0:Int) < |(100:Int) - 0| ∧
    locations_within [("x", 100), ("y", 2)] [("x", 0)] 0 =
      Except.error ("b does not have the key: " ++ "y") :=
  ⟨by decide, rfl⟩

/-- Claim C4 (amended): locations_within does not short-circuit on an
intolerable difference; every key of a is still processed, so a key of a
missing from b always raises the ValueError even when an earlier key
already exceeded the tolerance. -/
theorem locations_within_checks_later_keys (a b : List (String × Int))
    (tolerance : Int) (k : String) (hk : k ∈ keysOf a) (hkb : k ∉ keysOf b) :
    ∃ e, locations_within a b tolerance = Except.error e := by
  have hgo : ∀ (a2 b2 : List (String × Int)) (ret k2 : String),
      k2 ∈ keysOf a2 → k2 ∉ keysOf b2 →
      ∃ e, lw_go a2 b2 tolerance ret = Except.error e := by
    intro a2
    induction a2 with
    | nil =>
      intro b2 ret k2 hk2 _
      exact absurd hk2 (List.not_mem_nil k2)
    | cons e rest ih =>
      intro b2 ret k2 hk2 hk2b
      obtain ⟨k3, v3⟩ := e
      rcases hlk : alookup k3 b2 with _ | bv
      · exact ⟨"b does not have the key: " ++ k3, by simp only [lw_go, hlk]⟩
      · have hk3b : k3 ∈ keysOf b2 := (mem_keysOf_iff _ _).mpr (by simp [hlk])
        have hne : k2 ≠ k3 := fun he => hk2b (he ▸ hk3b)
        have hkrest : k2 ∈ keysOf rest := by
          rcases List.mem_cons.mp hk2 with he | hr
          · exact absurd he hne
          · exact hr
        obtain ⟨e2, he2⟩ := ih (aerase k3 b2) _ k2 hkrest
          (fun hx => hk2b (keysOf_aerase_subset k3 b2 hx))
        exact ⟨e2, by simp only [lw_go, hlk]; exact he2⟩
  exact hgo a b "" k hk hkb

/-- Witness for the amended C4 at the counterexample input: the later key y
is still checked and the function errors. -/
theorem locations_within_checks_later_keys_witness :
    ("y" ∈ keysOf [("x", (100:Int)), ("y", 2)] ∧
      "y" ∉ keysOf [("x", (0:Int))]) ∧
    (∃ e, locations_within [("x", (100:Int)), ("y", 2)] [("x", 0)] 0 =
      Except.error e) :=
  ⟨⟨by decide, by decide⟩,
    locations_within_checks_later_keys _ _ 0 "y" (by decide) (by decide)⟩

/-- Claim C6 divergence: the specified corner rule reports the element
visible because every corner hits a descendant, but the code, having
assigned at_corner the boolean of the strict-equality comparison, calls
contains on a boolean and the script raises a TypeError instead. -/
theorem visible_to_user_corner_descendant_divergence :
    cornersVisibleSpec cexWorld 0 cexElem.rect = true ∧
    (visible_to_user cexWorld cexElem []).result = Except.error "TypeError" ∧
    (visible_to_user cexWorld cexElem []).script_ran = true :=
  ⟨rfl, rfl, rfl⟩

lemma hideAll_map (ig : List String) : ∀ (d : List (String × String)),
    hideAll ig d = d.map (fun e => if e.1 ∈ ig then (e.1, "none") else e) := by
  induction ig with
  | nil =>
    intro d
    simp [hideAll]
  | cons x xs ih =>
    intro d
    show hideAll xs (cssSet d x "none") = _
    rw [ih (cssSet d x "none")]
    simp only [cssSet, List.map_map]
    refine List.map_congr_left ?_
    intro e _
    by_cases hx : e.1 = x
    · simp [Function.comp, hx, List.mem_cons]
    · simp [Function.comp, hx, List.mem_cons]

lemma restoreAll_map (ig : List String) : ∀ (olds : List (Option String))
    (d : List (String × String)),
    restoreAll ig olds d =
      d.map (fun e => (ig.zip olds).foldl (fun e2 p => rstep p e2) e) := by
  induction ig with
  | nil =>
    intro olds d
    simp [restoreAll]
  | cons x xs ih =>
    intro olds d
    cases olds with
    | nil => simp [restoreAll]
    | cons o os =>
      have hstep : (match o with
          | some ov => cssSet d x ov
          | none => d) = d.map (rstep (x, o)) := by
        cases o with
        | none =>
          have hr : rstep (x, none) = fun e => e := funext fun e => rfl
          rw [hr]
          exact (List.map_id' d).symm
        | some ov => rfl
      have h1 : restoreAll (x :: xs) (o :: os) d =
          restoreAll xs os (d.map (rstep (x, o))) := by
        simp only [restoreAll, List.zip_cons_cons, List.foldl_cons]
        rw [hstep]
      rw [h1, ih os (d.map (rstep (x, o))), List.map_map]
      refine List.map_congr_left ?_
      intro e _
      simp [Function.comp, List.zip_cons_cons, List.foldl_cons]

lemma rfoldl_run (d : List (String × String)) (k v : String)
    (hlk : alookup k d = some v) : ∀ (ig : List String) (w : String),
    (ig.zip (ig.map (fun x => alookup x d))).foldl
        (fun e2 p => rstep p e2) (k, w) =
      (k, if k ∈ ig then v else w) := by
  intro ig
  induction ig with
  | nil =>
    intro w
    simp
  | cons x xs ih =>
    intro w
    simp only [List.map_cons, List.zip_cons_cons, List.foldl_cons]
    by_cases hx : k = x
    · subst hx
      rw [hlk]
      have hr : rstep (k, some v) (k, w) = (k, v) := by simp [rstep]
      rw [hr, ih v]
      simp [List.mem_cons]
    · have hr : rstep (x, alookup x d) (k, w) = (k, w) := by
        cases halt : alookup x d with
        | none => simp [rstep]
        | some o => simp [rstep, hx]
      rw [hr, ih w]
      simp [List.mem_cons, hx]

lemma hide_restore_id (ig : List String) (d : List (String × String))
    (hnd : (keysOf d).Nodup) :
    restoreAll ig (ig.map (fun x => alookup x d)) (hideAll ig d) = d := by
  rw [hideAll_map, restoreAll_map, List.map_map]
  have hpt : ∀ e ∈ d,
      ((fun e => (ig.zip (ig.map (fun x => alookup x d))).foldl
          (fun e2 p => rstep p e2) e) ∘
        (fun e => if e.1 ∈ ig then (e.1, "none") else e)) e = e := by
    intro e hmem
    obtain ⟨k, v⟩ := e
    have hlk : alookup k d = some v := alookup_of_mem_nodup k v d hmem hnd
    by_cases hk : k ∈ ig
    · simp only [Function.comp, if_pos hk]
      rw [rfoldl_run d k v hlk ig "none"]
      rw [if_pos hk]
    · simp only [Function.comp, if_neg hk]
      rw [rfoldl_run d k v hlk ig v]
      rw [if_neg hk]
  rw [List.map_congr_left hpt]
  exact List.map_id' d

/-- Claim C7: after any visible_to_user call, whether it returns a value
or propagates a script exception, every ignorable display entry is back
to its pre-call value: the whole display map is unchanged. -/
theorem visible_to_user_restores_displays (w : World) (e : Elem)
    (ignorable : List String) (h : (keysOf w.displays).Nodup) :
    (visible_to_user w e ignorable).world.displays = w.displays := by
  unfold visible_to_user
  split
  · rfl
  · split
    · rfl
    · simp only [run_visibility_script]
      exact hide_restore_id ignorable w.displays h

/-- Witness for C7 at a world with one overlay entry and an element that
reaches the sampling script. -/
theorem visible_to_user_restores_displays_witness :
    (keysOf visWorld.displays).Nodup ∧
    (visible_to_user visWorld cexElem ["div.overlay"]).world.displays =
      visWorld.displays :=
  ⟨by decide,
    visible_to_user_restores_displays visWorld cexElem ["div.overlay"] (by decide)⟩

/-- Claim C8: visible_to_user returns False without running the
hit-testing script when the element reports itself not displayed, and
likewise for any element whose bounding box is disjoint from the
viewport. -/
theorem visible_to_user_cheap_rejects (w : World) (e : Elem)
    (ignorable : List String) :
    (e.is_displayed = false →
      visible_to_user w e ignorable = ⟨w, Except.ok false, false⟩) ∧
    (0 ≤ e.width → 0 ≤ e.height → 0 ≤ w.winWidth → 0 ≤ w.winHeight →
      (∀ x y, inBox e x y → ¬ inViewport w x y) →
      visible_to_user w e ignorable = ⟨w, Except.ok false, false⟩) := by
  constructor
  · intro hd
    simp [visible_to_user, hd]
  · intro hw hh hWW hWH hdisj
    unfold visible_to_user
    cases hb : e.is_displayed with
    | false => simp
    | true =>
      simp only [Bool.not_true, Bool.false_eq_true, if_false]
      have hcond : e.posTop + e.height < 0 ∨ e.posLeft + e.width < 0 ∨
          e.posTop > w.winHeight ∨ e.posLeft > w.winWidth := by
        by_contra hcon
        push_neg at hcon
        obtain ⟨h1, h2, h3, h4⟩ := hcon
        exact hdisj (max e.posLeft 0) (max e.posTop 0)
          ⟨le_max_left _ _,
            max_le (by omega) (by omega),
            le_max_left _ _,
            max_le (by omega) (by omega)⟩
          ⟨le_max_right _ _,
            max_le h4 hWW,
            le_max_right _ _,
            max_le h3 hWH⟩
      rw [if_pos hcond]

/-- Witness for C8: one element that is not displayed and one displayed
element entirely to the left of the viewport; both are rejected without
running the script. -/
theorem visible_to_user_cheap_rejects_witness :
    visible_to_user visWorld
      { id := 0, is_displayed := false, posTop := 10, posLeft := 10,
        width := 10, height := 10, rect := ⟨10, 10, 20, 20⟩ } [] =
      ⟨visWorld, Except.ok false, false⟩ ∧
    visible_to_user visWorld
      { id := 0, is_displayed := true, posTop := 0, posLeft := -100,
        width := 10, height := 10, rect := ⟨-100, 0, -90, 10⟩ } [] =
      ⟨visWorld, Except.ok false, false⟩ :=
  ⟨(visible_to_user_cheap_rejects visWorld _ []).1 rfl,
    (visible_to_user_cheap_rejects visWorld _ []).2 (by decide) (by decide)
      (by decide) (by decide)
      (fun x y hb hv => by
        obtain ⟨b1, b2, b3, b4⟩ := hb
        obtain ⟨v1, v2, v3, v4⟩ := hv
        simp only at b1 b2 b3 b4 v1 v2 v3 v4
        omega)⟩

end Selenic
